import Mathlib

/-!
Verification development for the tldr client (src/tldr.c).

Shallow embedding: C strings are lists of characters (`CStr`); files are
either raw character streams or the lists of chunks that `fgets` returns on
them; the index file, the page files and the archive entry list are passed
explicitly to each modelled function.  Undefined behaviour reachable in the
C source (dereferencing the result of a failed `strchr`/`strstr`/`fopen`)
is made explicit with `Option` results or dedicated `crash` constructors.
-/

namespace Tldr

abbrev CStr := List Char

/-- Model of C `strchr(s, c)`: the suffix of `s` starting at the first
occurrence of `c`, or `none` when `c` does not occur (NULL). -/
def strchr : CStr → Char → Option CStr
  | [], _ => none
  | c :: s, a => if c = a then some (c :: s) else strchr s a

/-- Model of C `strstr(hay, needle)`: the suffix of `hay` starting at the
leftmost occurrence of `needle`, or `none` (NULL) when there is none. -/
def strstrSuffix? (needle : CStr) : CStr → Option CStr
  | [] => if needle = [] then some [] else none
  | c :: t => if needle <+: (c :: t) then some (c :: t) else strstrSuffix? needle t

/-- The portion of a line after its first `/` character, i.e. what the C
expression `strchr(buf, '/') + 1` denotes when `strchr` succeeds. -/
def afterFirstSlash (l : CStr) : CStr := (l.dropWhile (· ≠ '/')).tail

/-- Concatenation of a list of character chunks (the byte stream a list of
lines was written from). -/
def joinAll : List CStr → CStr
  | [] => []
  | l :: ls => l ++ joinAll ls

/-- Result of `find_page` [src/tldr.c:196-221]: a page path (`found`), the
NULL return (`notFound`), or undefined behaviour from dereferencing a NULL
`strchr` result (`crash`). -/
inductive FindResult
  | found : CStr → FindResult
  | notFound : FindResult
  | crash : FindResult
deriving DecidableEq, Repr

/-- Loop body of `find_page` [src/tldr.c:205-218].  `slash` is the constant
test `strchr(page_name, '/')`, `pf` is `page_filename` (the query with
`".md\n"` appended), and the list argument holds the successive `fgets`
results on the index.  On a match the code does `*strchr(buf, '\n') = '\0'`
and returns `buf`, hence the `takeWhile` and the `crash` when the chunk has
no newline; in the filename-only branch `strchr(buf, '/') + 1` is
dereferenced unguarded, hence the `crash` when a chunk has no slash. -/
def find_go (slash : Bool) (pf : CStr) : List CStr → FindResult
  | [] => .notFound
  | buf :: rest =>
    if slash then
      if pf = buf then
        match strchr buf '\n' with
        | some _ => .found (buf.takeWhile (· ≠ '\n'))
        | none => .crash
      else find_go slash pf rest
    else
      match strchr buf '/' with
      | none => .crash
      | some s =>
        if pf = s.tail then
          match strchr buf '\n' with
          | some _ => .found (buf.takeWhile (· ≠ '\n'))
          | none => .crash
        else find_go slash pf rest

/-- `find_page` [src/tldr.c:196-221] on an index given as the list of
chunks `fgets` yields on it. -/
def find_page (index : List CStr) (page_name : CStr) : FindResult :=
  find_go (strchr page_name '/').isSome (page_name ++ (".md\n").data) index

/-- One `fgets(buf, n+1, f)` call on stream contents `s`: reads at most `n`
characters, stopping after the first newline; returns the chunk read and
the rest of the stream. -/
def fgetsChunk : Nat → CStr → CStr × CStr
  | _, [] => ([], [])
  | 0, s => ([], s)
  | n + 1, c :: s =>
    if c = '\n' then ([c], s)
    else ((c :: (fgetsChunk n s).1), (fgetsChunk n s).2)

/-- Repeated `fgets(buf, BUF_SIZE, f)` (`BUF_SIZE = 1024` [src/tldr.c:29]),
fuelled by the stream length. -/
def fgetsChunksGo : Nat → CStr → List CStr
  | _, [] => []
  | fuel + 1, c :: s =>
    (fgetsChunk 1023 (c :: s)).1 :: fgetsChunksGo fuel (fgetsChunk 1023 (c :: s)).2
  | 0, _ :: _ => []

/-- The list of chunks successive `fgets(buf, 1024, f)` calls return on a
file with contents `s`. -/
def fgetsChunks (s : CStr) : List CStr := fgetsChunksGo s.length s

/-- `find_page` applied to the raw contents of the index file, reading it
through `fgets` as the C code does. -/
def find_page_file (contents : CStr) (page_name : CStr) : FindResult :=
  find_page (fgetsChunks contents) page_name

/-- The matching rule of the Page Locator as the specification states it:
a whole-line comparison when the query names a platform, a comparison
against the portion after the first `/` otherwise. -/
def lineMatches (slash : Bool) (pf l : CStr) : Bool :=
  if slash then decide (pf = l) else decide (pf = afterFirstSlash l)

/-- `fopen` modes used on the index file. -/
inductive FMode
  | r
  | w
deriving DecidableEq, Repr

/-- `open_index` [src/tldr.c:263-276] viewed as a pure map on the index
contents: mode `"r"` leaves the contents in place and makes them readable;
mode `"w"` truncates the file, and the resulting stream yields no data to
`fgets`.  Result: (readable data, file contents after opening). -/
def open_index (mode : FMode) (contents : List CStr) : List CStr × List CStr :=
  match mode with
  | .r => (contents, contents)
  | .w => ([], [])

/-- One loop iteration of `list_pages` [src/tldr.c:191-192]: prints
`strchr(buf + 1, '/') + 1`; `none` models the undefined dereference when a
read line has no `/` after its first character. -/
def list_line (buf : CStr) : Option CStr :=
  match strchr buf.tail '/' with
  | none => none
  | some s => some s.tail

/-- `list_pages` [src/tldr.c:185-194] as written: it opens the index with
`open_index("w")` [src/tldr.c:190], then loops `fgets`/`printf`.  Returns
the index contents after the call and the printed output (`none` when an
iteration hits the undefined `strchr` dereference). -/
def list_pages (contents : List CStr) : List CStr × Option (List CStr) :=
  ((open_index .w contents).2, ((open_index .w contents).1).mapM list_line)

/-- The four style strings from config.h (compile-time configuration). -/
structure Styles where
  heading : CStr
  subheading : CStr
  commandDesc : CStr
  command : CStr
deriving DecidableEq, Repr

/-- `RESET_STYLING` [src/tldr.c:55]. -/
def RESET_STYLING : CStr := ("\x1b[0m").data

/-- Loop body of `display_page` [src/tldr.c:242-258]: skip a line that is
exactly `"\n"`; otherwise four independent `if` statements on the first
character, each printing the line wrapped in a style and the reset string.
The four marker characters are distinct, so at most one branch prints. -/
def display_line (st : Styles) (buf : CStr) : List CStr :=
  if buf = ['\n'] then []
  else
    (if buf.head? = some '#' then [st.heading ++ buf ++ RESET_STYLING] else [])
      ++ (if buf.head? = some '>' then [st.subheading ++ buf ++ RESET_STYLING] else [])
      ++ (if buf.head? = some '-' then [st.commandDesc ++ buf ++ RESET_STYLING] else [])
      ++ (if buf.head? = some '`' then [st.command ++ buf ++ RESET_STYLING] else [])

/-- The rendering loop of `display_page` over the chunks `fgets` yields on
the page file. -/
def render (st : Styles) (lines : List CStr) : List CStr :=
  (lines.map (display_line st)).flatten

/-- One line of the Render filtering rule as the specification states it:
a line that is exactly a blank line is skipped; otherwise a line whose
first character is `#`, `>`, `-` or a backtick is printed wrapped in the
corresponding style followed by the reset; every other line is dropped
silently. -/
def render_line_spec (st : Styles) (l : CStr) : List CStr :=
  if l = ['\n'] then []
  else if l.head? = some '#' then [st.heading ++ l ++ RESET_STYLING]
  else if l.head? = some '>' then [st.subheading ++ l ++ RESET_STYLING]
  else if l.head? = some '-' then [st.commandDesc ++ l ++ RESET_STYLING]
  else if l.head? = some '`' then [st.command ++ l ++ RESET_STYLING]
  else []

/-- The Render filtering rule of the specification, over a whole page. -/
def render_spec (st : Styles) (lines : List CStr) : List CStr :=
  (lines.map (render_line_spec st)).flatten

/-- Compile-time configuration plus the process-external state that
`display_page` reads: the index file (as `fgets` chunks) and the page
files under the cache (path, contents as `fgets` chunks). -/
structure TldrConfig where
  home : CStr
  pagesPath : CStr
  pagesLang : CStr
  index : List CStr
  files : List (CStr × List CStr)
deriving DecidableEq, Repr

/-- Association-list lookup modelling `fopen` on the cached page files:
`none` is a failed `fopen`. -/
def assocLookup (fs : List (CStr × List CStr)) (p : CStr) : Option (List CStr) :=
  match fs with
  | [] => none
  | e :: rest => if e.1 = p then some e.2 else assocLookup rest p

/-- Outcome of `display_page` [src/tldr.c:223-261]. -/
inductive DisplayOutcome
  | pageNotFound : DisplayOutcome
  | findCrash : DisplayOutcome
  | openCrash : DisplayOutcome
  | rendered : List CStr → DisplayOutcome
deriving DecidableEq, Repr

/-- `display_page` [src/tldr.c:223-261].  On a NULL locator result it
prints the not-found message and calls `exit(1)` before touching any file.
Otherwise it builds `HOME ++ PAGES_PATH ++ PAGES_LANG ++ "/" ++ page_path`
and calls `fopen` on it; the result of `fopen` is passed to `fgets` with no
NULL check [src/tldr.c:240-241], so a failed open is `openCrash`.  The
second component records the page files `fopen` was attempted on. -/
def display_page (st : Styles) (cfg : TldrConfig) (q : CStr) : DisplayOutcome × List CStr :=
  match find_page cfg.index q with
  | .crash => (.findCrash, [])
  | .notFound => (.pageNotFound, [])
  | .found p =>
    match assocLookup cfg.files (cfg.home ++ cfg.pagesPath ++ cfg.pagesLang ++ '/' :: p) with
    | none => (.openCrash, [cfg.home ++ cfg.pagesPath ++ cfg.pagesLang ++ '/' :: p])
    | some lines => (.rendered (render st lines), [cfg.home ++ cfg.pagesPath ++ cfg.pagesLang ++ '/' :: p])

/-- The synthesized archive root `"tldr-master" ++ PAGES_LANG ++ "/"`
[src/tldr.c:136-138]. -/
def archive_path (pagesLang : CStr) : CStr :=
  ("tldr-master").data ++ pagesLang ++ ['/']

/-- The first scanning loop of `extract_pages` [src/tldr.c:141-143]: read
headers until one equals the root exactly, leaving the position just after
it; if none equals the root, the whole archive is consumed. -/
def afterFirst (root : CStr) : List CStr → List CStr
  | [] => []
  | e :: es => if e = root then es else afterFirst root es

/-- `extract_pages` [src/tldr.c:112-161] on the list of entry path names in
archive order.  After the scan, entries are extracted while the root is a
prefix of their path [src/tldr.c:144-147]; each is written to
`HOME ++ PAGES_PATH ++ strchr(pathname, '/')` [src/tldr.c:150-153].  For
every retained entry the root — which contains a `/` — is a prefix of the
path, so that `strchr` cannot be NULL and is modelled by the total
`dropWhile`.  Result: (entry path, destination path) per extracted entry;
the only error exit inside the loop [src/tldr.c:155-157] is per extracted
entry, so extracting nothing reports nothing. -/
def extract_pages (home pagesPath pagesLang : CStr) (entries : List CStr) : List (CStr × CStr) :=
  ((afterFirst (archive_path pagesLang) entries).takeWhile
      (fun e => decide (archive_path pagesLang <+: e))).map
    (fun e => (e, home ++ pagesPath ++ e.dropWhile (· ≠ '/')))

/-- `ftw` type flags. -/
inductive FtwType
  | F
  | D
  | DNR
  | NS
deriving DecidableEq, Repr

/-- One node visited by `ftw` [src/tldr.c:172]. -/
structure FtwEntry where
  path : CStr
  typeflag : FtwType
deriving DecidableEq, Repr

/-- The line `ftw_callback` [src/tldr.c:176-183] writes for a regular file:
`strchr(strstr(path, PAGES_LANG) + 1, '/') + 1` followed by `"\n"`;
`none` models the undefined pointer arithmetic when `strstr` or `strchr`
returns NULL. -/
def ftw_callback_line (pagesLang path : CStr) : Option CStr :=
  match strstrSuffix? pagesLang path with
  | none => none
  | some s =>
    match strchr s.tail '/' with
    | none => none
    | some t => some (t.tail ++ ['\n'])

/-- The lines written while `ftw` walks the tree: one line per `FTW_F`
entry, in traversal order; `none` when a callback hits undefined
behaviour. -/
def index_lines (pagesLang : CStr) : List FtwEntry → Option (List CStr)
  | [] => some []
  | e :: t =>
    if e.typeflag = FtwType.F then
      match ftw_callback_line pagesLang e.path with
      | none => none
      | some line => (index_lines pagesLang t).map (line :: ·)
    else index_lines pagesLang t

/-- `index_pages` [src/tldr.c:163-174]: opens the index with
`open_index("w")` [src/tldr.c:171] — truncate-write, so the prior contents
are discarded — then walks the tree appending one line per regular file.
Returns the new index contents. -/
def index_pages (pagesLang : CStr) (tree : List FtwEntry) (prior : List CStr) : Option (List CStr) :=
  (index_lines pagesLang tree).map (fun ls => (open_index .w prior).2 ++ ls)

/-- Occurrence condition under which C `strstr` finds `needle` exactly at
the end of `pre`: no earlier position of `pre ++ (needle ++ suf)` starts
with `needle`. -/
def OccursFirstAt (pre needle suf : CStr) : Prop :=
  ∀ i, i < pre.length → ¬ needle <+: (pre ++ (needle ++ suf)).drop i

instance occursFirstAtDecidable (pre needle suf : CStr) :
    Decidable (OccursFirstAt pre needle suf) :=
  inferInstanceAs (Decidable (∀ i, i < pre.length → ¬ needle <+: (pre ++ (needle ++ suf)).drop i))

/-! ### Helper lemmas about the C string primitives -/

theorem strchr_eq_none (l : CStr) (a : Char) (h : a ∉ l) : strchr l a = none := by
  induction l with
  | nil => rfl
  | cons c t ih =>
    have hc : ¬ c = a := fun hc => h (hc ▸ List.mem_cons_self c t)
    simp only [strchr, if_neg hc]
    exact ih (fun hm => h (List.mem_cons_of_mem c hm))

theorem strchr_of_mem (l : CStr) (a : Char) (h : a ∈ l) :
    strchr l a = some (l.dropWhile (· ≠ a)) := by
  induction l with
  | nil => cases h
  | cons c t ih =>
    by_cases hc : c = a
    · subst hc
      simp [strchr, List.dropWhile]
    · have ht : a ∈ t := by
        rcases List.mem_cons.mp h with h1 | h1
        · exact absurd h1.symm hc
        · exact h1
      simp [strchr, hc, List.dropWhile, ih ht]

theorem strchr_isSome_iff (l : CStr) (a : Char) : (strchr l a).isSome = true ↔ a ∈ l := by
  constructor
  · intro h
    by_contra hm
    rw [strchr_eq_none l a hm] at h
    cases h
  · intro h
    rw [strchr_of_mem l a h]
    rfl

theorem mem_of_mem_dropWhile {α : Type} {p : α → Bool} {x : α} :
    ∀ {l : List α}, x ∈ l.dropWhile p → x ∈ l := by
  intro l
  induction l with
  | nil => intro h; cases h
  | cons c t ih =>
    intro h
    rw [List.dropWhile_cons] at h
    by_cases hc : p c = true
    · simp only [if_pos hc] at h
      exact List.mem_cons_of_mem c (ih h)
    · simp only [if_neg hc] at h
      exact h

theorem mem_of_mem_afterFirstSlash {x : Char} {l : CStr} (h : x ∈ afterFirstSlash l) :
    x ∈ l :=
  mem_of_mem_dropWhile (List.mem_of_mem_tail h)

theorem takeWhile_append_all {α : Type} (p : α → Bool) (A B : List α)
    (h : ∀ a ∈ A, p a = true) : (A ++ B).takeWhile p = A ++ B.takeWhile p := by
  induction A with
  | nil => simp
  | cons c t ih =>
    have hc := h c (List.mem_cons_self c t)
    simp only [List.cons_append, List.takeWhile_cons, hc, if_true]
    rw [ih (fun a ha => h a (List.mem_cons_of_mem c ha))]

theorem dropWhile_append_all {α : Type} (p : α → Bool) (A B : List α)
    (h : ∀ a ∈ A, p a = true) : (A ++ B).dropWhile p = B.dropWhile p := by
  induction A with
  | nil => simp
  | cons c t ih =>
    have hc := h c (List.mem_cons_self c t)
    simp only [List.cons_append, List.dropWhile_cons, hc, if_true]
    exact ih (fun a ha => h a (List.mem_cons_of_mem c ha))

theorem takeWhile_append_stop {α : Type} (p : α → Bool) (run post : List α)
    (h1 : ∀ a ∈ run, p a = true) (h2 : ∀ a ∈ post.head?, p a = false) :
    (run ++ post).takeWhile p = run := by
  rw [takeWhile_append_all p run post h1]
  cases post with
  | nil => simp
  | cons x xs =>
    have hx := h2 x rfl
    simp [List.takeWhile_cons, hx]

/-! ### The Page Locator characterization -/

theorem find_go_eq (slash : Bool) (pf : CStr) (index : List CStr)
    (hsl : slash = false → ∀ l ∈ index, '/' ∈ l) (hnl : '\n' ∈ pf) :
    find_go slash pf index
      = ((index.find? (lineMatches slash pf)).map
          (fun l => FindResult.found (l.takeWhile (· ≠ '\n')))).getD .notFound := by
  induction index with
  | nil => cases slash <;> rfl
  | cons buf rest ih =>
    have ihr : find_go slash pf rest
        = ((rest.find? (lineMatches slash pf)).map
            (fun l => FindResult.found (l.takeWhile (· ≠ '\n')))).getD .notFound :=
      ih (fun hs l hl => hsl hs l (List.mem_cons_of_mem buf hl))
    cases slash with
    | true =>
      simp only [find_go, if_pos rfl]
      by_cases hm : pf = buf
      · have hb : '\n' ∈ buf := hm ▸ hnl
        have hfind : (buf :: rest).find? (lineMatches true pf) = some buf :=
          List.find?_cons_of_pos rest (by simp [lineMatches, hm])
        rw [if_pos hm, strchr_of_mem buf '\n' hb, hfind]
        rfl
      · have hfind : (buf :: rest).find? (lineMatches true pf)
            = rest.find? (lineMatches true pf) :=
          List.find?_cons_of_neg rest (by simp [lineMatches, hm])
        rw [if_neg hm, hfind]
        exact ihr
    | false =>
      have hb : '/' ∈ buf := hsl rfl buf (List.mem_cons_self buf rest)
      have hstr := strchr_of_mem buf '/' hb
      simp only [find_go, if_neg Bool.false_ne_true, hstr]
      by_cases hm : pf = afterFirstSlash buf
      · have hbn : '\n' ∈ buf := mem_of_mem_afterFirstSlash (hm ▸ hnl)
        have hfind : (buf :: rest).find? (lineMatches false pf) = some buf :=
          List.find?_cons_of_pos rest (by simp [lineMatches, hm])
        simp only [afterFirstSlash] at hm
        rw [if_pos hm, strchr_of_mem buf '\n' hbn, hfind]
        rfl
      · have hfind : (buf :: rest).find? (lineMatches false pf)
            = rest.find? (lineMatches false pf) :=
          List.find?_cons_of_neg rest (by simp [lineMatches, hm])
        simp only [afterFirstSlash] at hm
        rw [if_neg hm, hfind]
        exact ihr

theorem takeWhile_md (Q : CStr) (h : '\n' ∉ Q) :
    (Q ++ (".md\n").data).takeWhile (· ≠ '\n') = Q ++ (".md").data := by
  rw [takeWhile_append_all _ Q _
    (fun a ha => by simp only [decide_eq_true_eq]; exact fun he => h (he ▸ ha))]
  exact congrArg (Q ++ ·) (by decide)

theorem afterFirstSlash_append (platform R : CStr) (hps : '/' ∉ platform) :
    afterFirstSlash (platform ++ '/' :: R) = R := by
  have h1 : (platform ++ '/' :: R).dropWhile (· ≠ '/') = '/' :: R := by
    rw [dropWhile_append_all _ platform _
      (fun a ha => by simp only [decide_eq_true_eq]; exact fun he => hps (he ▸ ha))]
    simp [List.dropWhile_cons]
  simp only [afterFirstSlash, h1]
  rfl

/-- C1: the Page Locator matching rule.  The hypothesis is the Index File
data-model invariant (every index line has the `<platform>/<command>.md`
shape, hence contains a `/`); without it the filename-only branch
dereferences a NULL `strchr` result, which claim C10 covers.  The right
hand side states the rule exactly as the specification does: with a `/` in
the query, the first index line equal (compared whole) to the normalized
query `q ++ ".md\n"`; without one, the first index line whose portion
after its first `/` equals the normalized query; in both cases the match
is returned with everything from its line terminator on stripped, and no
match yields the not-found sentinel. -/
theorem find_page_matching_rule (index : List CStr) (q : CStr)
    (hwf : ∀ l ∈ index, '/' ∈ l) :
    find_page index q
      = ((index.find? (lineMatches (strchr q '/').isSome (q ++ (".md\n").data))).map
          (fun l => FindResult.found (l.takeWhile (· ≠ '\n')))).getD .notFound :=
  find_go_eq _ _ index (fun _ => hwf) (List.mem_append_right q (by decide))

/-- C1 witness, which is also the first-match instance the claim quotes:
with index lines `linux/foo.md` before `common/foo.md`, `find("foo")`
returns `linux/foo.md`. -/
theorem find_page_matching_rule_first_match :
    find_page [("linux/foo.md\n").data, ("common/foo.md\n").data] (("foo").data)
      = .found (("linux/foo.md").data) := by
  have h := find_page_matching_rule [("linux/foo.md\n").data, ("common/foo.md\n").data]
    (("foo").data) (by decide)
  rw [h]
  decide

/-- C6: round-trip lookup.  For an index line `platform/name.md` present in
the index, `find("platform/name")` returns it; and `find("name")` returns
it too when `name` is unique across platforms (the uniqueness hypothesis
says any index line whose filename part is `name.md` is that line).  The
slash-freedom and newline-freedom hypotheses say `platform` and `name` are
genuine path components, as the Index Builder writes them. -/
theorem find_page_round_trip (index : List CStr) (platform name : CStr)
    (hps : '/' ∉ platform) (hpn : '\n' ∉ platform)
    (hns : '/' ∉ name) (hnn : '\n' ∉ name)
    (hwf : ∀ l ∈ index, '/' ∈ l)
    (hmem : (platform ++ '/' :: (name ++ (".md\n").data)) ∈ index)
    (huniq : ∀ l ∈ index, afterFirstSlash l = name ++ (".md\n").data →
      l = platform ++ '/' :: (name ++ (".md\n").data)) :
    find_page index (platform ++ '/' :: name)
        = .found (platform ++ '/' :: (name ++ (".md").data))
    ∧ find_page index name = .found (platform ++ '/' :: (name ++ (".md").data)) := by
  have hL : (platform ++ '/' :: name) ++ (".md\n").data
      = platform ++ '/' :: (name ++ (".md\n").data) := by
    simp [List.append_assoc]
  have hQn : '\n' ∉ platform ++ '/' :: name := by
    intro hmm
    rcases List.mem_append.mp hmm with h1 | h1
    · exact hpn h1
    · rcases List.mem_cons.mp h1 with h2 | h2
      · cases h2
      · exact hnn h2
  have hstrip : (platform ++ '/' :: (name ++ (".md\n").data)).takeWhile (· ≠ '\n')
      = platform ++ '/' :: (name ++ (".md").data) := by
    rw [← hL, takeWhile_md _ hQn]
    simp [List.append_assoc]
  constructor
  · have hslash : (strchr (platform ++ '/' :: name) '/').isSome = true :=
      (strchr_isSome_iff _ _).mpr
        (List.mem_append_right platform (List.mem_cons_self '/' name))
    have h := find_go_eq ((strchr (platform ++ '/' :: name) '/').isSome)
      ((platform ++ '/' :: name) ++ (".md\n").data) index
      (fun hs => by rw [hslash] at hs; cases hs)
      (List.mem_append_right _ (by decide))
    rw [find_page, h]
    have hpred : lineMatches ((strchr (platform ++ '/' :: name) '/').isSome)
        ((platform ++ '/' :: name) ++ (".md\n").data)
        (platform ++ '/' :: (name ++ (".md\n").data)) = true := by
      simp [lineMatches, hslash, hL]
    have hsome : (index.find? (lineMatches ((strchr (platform ++ '/' :: name) '/').isSome)
        ((platform ++ '/' :: name) ++ (".md\n").data))).isSome = true :=
      List.find?_isSome.mpr ⟨_, hmem, hpred⟩
    obtain ⟨x, hx⟩ := Option.isSome_iff_exists.mp hsome
    have hpx := List.find?_some hx
    rw [lineMatches, if_pos (by rw [hslash]), decide_eq_true_eq] at hpx
    rw [hx]
    have hxt : x.takeWhile (· ≠ '\n') = platform ++ '/' :: (name ++ (".md").data) := by
      rw [← hpx, hL]
      exact hstrip
    show FindResult.found (x.takeWhile (· ≠ '\n'))
        = FindResult.found (platform ++ '/' :: (name ++ (".md").data))
    rw [hxt]
  · have hslash : (strchr name '/').isSome = false := by
      rw [strchr_eq_none name '/' hns]
      rfl
    have h := find_go_eq ((strchr name '/').isSome) (name ++ (".md\n").data) index
      (fun _ => hwf) (List.mem_append_right _ (by decide))
    rw [find_page, h]
    have hpred : lineMatches ((strchr name '/').isSome) (name ++ (".md\n").data)
        (platform ++ '/' :: (name ++ (".md\n").data)) = true := by
      simp [lineMatches, hslash, afterFirstSlash_append _ _ hps]
    have hsome : (index.find? (lineMatches ((strchr name '/').isSome)
        (name ++ (".md\n").data))).isSome = true :=
      List.find?_isSome.mpr ⟨_, hmem, hpred⟩
    obtain ⟨x, hx⟩ := Option.isSome_iff_exists.mp hsome
    have hpx := List.find?_some hx
    rw [lineMatches, if_neg (by rw [hslash]; exact Bool.false_ne_true),
      decide_eq_true_eq] at hpx
    have hxL : x = platform ++ '/' :: (name ++ (".md\n").data) :=
      huniq x (List.mem_of_find?_eq_some hx) hpx.symm
    rw [hx]
    have hxt : x.takeWhile (· ≠ '\n') = platform ++ '/' :: (name ++ (".md").data) := by
      rw [hxL]
      exact hstrip
    show FindResult.found (x.takeWhile (· ≠ '\n'))
        = FindResult.found (platform ++ '/' :: (name ++ (".md").data))
    rw [hxt]

/-- C6 witness: a two-platform index where `tar` is unique; both query
forms return the `linux/tar.md` line. -/
theorem find_page_round_trip_witness :
    find_page [("linux/tar.md\n").data, ("common/ls.md\n").data] (("linux/tar").data)
      = .found (("linux/tar.md").data)
    ∧ find_page [("linux/tar.md\n").data, ("common/ls.md\n").data] (("tar").data)
      = .found (("linux/tar.md").data) := by
  have h := find_page_round_trip [("linux/tar.md\n").data, ("common/ls.md\n").data]
    (("linux").data) (("tar").data) (by decide) (by decide) (by decide) (by decide)
    (by decide) (by decide) (by decide)
  exact ⟨h.1, h.2⟩

/-- C7: the not-found path.  When no index line matches the query under the
Locator rule, `find_page` returns the NULL sentinel, and `display_page`
prints the not-found message and exits non-zero — the empty second
component records that no page file was ever passed to `fopen`. -/
theorem find_page_not_found (st : Styles) (cfg : TldrConfig) (q : CStr)
    (hwf : ∀ l ∈ cfg.index, '/' ∈ l)
    (hnom : ∀ l ∈ cfg.index,
      lineMatches ((strchr q '/').isSome) (q ++ (".md\n").data) l = false) :
    find_page cfg.index q = .notFound ∧ display_page st cfg q = (.pageNotFound, []) := by
  have h1 : find_page cfg.index q = .notFound := by
    have h := find_go_eq ((strchr q '/').isSome) (q ++ (".md\n").data) cfg.index
      (fun _ => hwf) (List.mem_append_right q (by decide))
    have hnone : cfg.index.find? (lineMatches ((strchr q '/').isSome)
        (q ++ (".md\n").data)) = none :=
      List.find?_eq_none.mpr (fun x hx => by rw [hnom x hx]; exact Bool.false_ne_true)
    rw [find_page, h, hnone]
    rfl
  exact ⟨h1, by simp [display_page, h1]⟩

/-- C7 witness: a query matching nothing in a one-line index. -/
theorem find_page_not_found_witness :
    find_page [("linux/foo.md\n").data] (("bar").data) = .notFound
    ∧ display_page ⟨("H").data, ("S").data, ("D").data, ("C").data⟩
        ⟨("/home/u").data, ("/.tldr").data, ("/pages").data,
         [("linux/foo.md\n").data], []⟩ (("bar").data)
      = (.pageNotFound, []) :=
  find_page_not_found ⟨("H").data, ("S").data, ("D").data, ("C").data⟩
    ⟨("/home/u").data, ("/.tldr").data, ("/pages").data,
     [("linux/foo.md\n").data], []⟩ (("bar").data) (by decide) (by decide)

theorem afterFirst_append (root : CStr) (pre rest : List CStr) (h : root ∉ pre) :
    afterFirst root (pre ++ root :: rest) = rest := by
  induction pre with
  | nil => simp [afterFirst]
  | cons e t ih =>
    have he : ¬ e = root := fun hh => h (hh ▸ List.mem_cons_self e t)
    simp only [List.cons_append, afterFirst, if_neg he]
    exact ih (fun hm => h (List.mem_cons_of_mem e hm))

theorem afterFirst_eq_nil (root : CStr) (entries : List CStr)
    (h : ∀ e ∈ entries, e ≠ root) : afterFirst root entries = [] := by
  induction entries with
  | nil => rfl
  | cons e t ih =>
    simp only [afterFirst, if_neg (h e (List.mem_cons_self e t))]
    exact ih (fun x hx => h x (List.mem_cons_of_mem e hx))

/-- C3: extraction scoping and path rewrite.  For an archive whose entries
under the synthesized root `"tldr-master" ++ PAGES_LANG ++ "/"` form one
contiguous run right after the root entry, `extract_pages` writes exactly
that run — stopping, without any error branch, at the first entry that does
not share the prefix — and each destination is `HOME ++ PAGES_PATH`
followed by everything from the entry path's first `/` onward.  The second
conjunct spells out what that rewrite does to an entry under the root:
with `PAGES_LANG = "/" ++ ln`, entry `tldr-master/<ln>/rest` lands at
`<language root>/rest`, i.e. the archive's top two path components are
discarded. -/
theorem extract_pages_scoping
    (home pagesPath pagesLang ln : CStr) (pre run post : List CStr)
    (hlang : pagesLang = '/' :: ln)
    (hpre : archive_path pagesLang ∉ pre)
    (hrun : ∀ e ∈ run, archive_path pagesLang <+: e)
    (hpost : ∀ e ∈ post.head?, ¬ archive_path pagesLang <+: e) :
    extract_pages home pagesPath pagesLang (pre ++ archive_path pagesLang :: (run ++ post))
        = run.map (fun e => (e, home ++ pagesPath ++ e.dropWhile (· ≠ '/')))
    ∧ ∀ rest, home ++ pagesPath ++ (archive_path pagesLang ++ rest).dropWhile (· ≠ '/')
        = (home ++ pagesPath ++ pagesLang) ++ '/' :: rest := by
  constructor
  · rw [extract_pages, afterFirst_append _ _ _ hpre,
      takeWhile_append_stop _ run post
        (fun e he => decide_eq_true (hrun e he))
        (fun e he => decide_eq_false (hpost e he))]
  · intro rest
    subst hlang
    have harch : archive_path ('/' :: ln) ++ rest
        = ("tldr-master").data ++ ('/' :: (ln ++ '/' :: rest)) := by
      simp [archive_path, List.append_assoc]
    rw [harch, dropWhile_append_all _ (("tldr-master").data) _ (by decide)]
    simp [List.dropWhile_cons, List.append_assoc]

/-- C3 witness: a five-entry archive with a contiguous `tldr-master/pages/`
subtree followed by a `tldr-master/pages.zh/` entry that stops extraction;
both retained entries land under the destination with the top two path
components stripped. -/
theorem extract_pages_scoping_witness :
    extract_pages (("/home/u").data) (("/.tldr").data) (("/pages").data)
      [("tldr-master/").data, ("tldr-master/pages/").data,
       ("tldr-master/pages/linux/").data, ("tldr-master/pages/linux/tar.md").data,
       ("tldr-master/pages.zh/").data]
      = [((("tldr-master/pages/linux/").data), (("/home/u/.tldr/pages/linux/").data)),
         ((("tldr-master/pages/linux/tar.md").data),
          (("/home/u/.tldr/pages/linux/tar.md").data))] := by
  have h := extract_pages_scoping (("/home/u").data) (("/.tldr").data) (("/pages").data)
    (("pages").data) [("tldr-master/").data]
    [("tldr-master/pages/linux/").data, ("tldr-master/pages/linux/tar.md").data]
    [("tldr-master/pages.zh/").data] rfl (by decide) (by decide) (by decide)
  exact h.1

/-- C8: the missing-subtree no-op.  When no entry equals the synthesized
root exactly, the first scanning loop consumes the whole archive and the
extraction loop runs zero times: nothing is written, and since the only
error exit inside the loop is per extracted entry, nothing is reported. -/
theorem extract_pages_missing_subtree
    (home pagesPath pagesLang : CStr) (entries : List CStr)
    (h : ∀ e ∈ entries, e ≠ archive_path pagesLang) :
    extract_pages home pagesPath pagesLang entries = [] := by
  rw [extract_pages, afterFirst_eq_nil _ _ h]
  rfl

/-- C8 witness: an archive holding only a `pages.zh` subtree while
`pages` is selected. -/
theorem extract_pages_missing_subtree_witness :
    extract_pages (("/home/u").data) (("/.tldr").data) (("/pages").data)
      [("tldr-master/").data, ("tldr-master/pages.zh/").data,
       ("tldr-master/pages.zh/linux/tar.md").data] = [] :=
  extract_pages_missing_subtree _ _ _ _ (by decide)

/-- C2 evaluated at a failing input: the claim says `-l` prints every
indexed page name (platform stripped) and leaves the index unchanged, but
`list_pages` opens the index through `open_index("w")` [src/tldr.c:190] —
its own comment says "Prints all page names" [src/tldr.c:44-45], so the
mode is a slip for `"r"`.  On an index holding the one line
`linux/foo.md`, the call truncates the index to empty and prints nothing
(fgets on the write-only stream yields no data). -/
theorem list_pages_discards_index :
    list_pages [("linux/foo.md\n").data] = (([] : List CStr), some ([] : List CStr)) := rfl

/-- C5 evaluated at a failing input: the claim (and the specification's
error taxonomy) says a failed open of the resolved page is a fatal IO
error with a diagnostic and a non-zero exit, but `display_page` passes the
result of `fopen` to `fgets` with no NULL check [src/tldr.c:240-241] —
every other `fopen` in the program is checked, so the missing check is a
slip.  With the index naming `linux/foo.md` but no such file on disk, the
locator resolves the page and the code then dereferences the NULL stream
(`openCrash`) instead of terminating cleanly. -/
theorem display_page_fopen_unchecked :
    display_page ⟨("H").data, ("S").data, ("D").data, ("C").data⟩
      ⟨("/home/u").data, ("/.tldr").data, ("/pages").data,
       [("linux/foo.md\n").data], []⟩ (("foo").data)
      = (.openCrash, [("/home/u/.tldr/pages/linux/foo.md").data]) := by
  decide

theorem display_line_eq_spec (st : Styles) (l : CStr) :
    display_line st l = render_line_spec st l := by
  rw [display_line, render_line_spec]
  by_cases hb : l = ['\n']
  · rw [if_pos hb, if_pos hb]
  · rw [if_neg hb, if_neg hb]
    by_cases h1 : l.head? = some '#'
    · have h2 : ¬ l.head? = some '>' := by rw [h1]; decide
      have h3 : ¬ l.head? = some '-' := by rw [h1]; decide
      have h4 : ¬ l.head? = some '`' := by rw [h1]; decide
      rw [if_pos h1, if_pos h1, if_neg h2, if_neg h3, if_neg h4]
      rfl
    · rw [if_neg h1, if_neg h1]
      by_cases h2 : l.head? = some '>'
      · have h3 : ¬ l.head? = some '-' := by rw [h2]; decide
        have h4 : ¬ l.head? = some '`' := by rw [h2]; decide
        rw [if_pos h2, if_pos h2, if_neg h3, if_neg h4]
        rfl
      · rw [if_neg h2, if_neg h2]
        by_cases h3 : l.head? = some '-'
        · have h4 : ¬ l.head? = some '`' := by rw [h3]; decide
          rw [if_pos h3, if_pos h3, if_neg h4]
          rfl
        · rw [if_neg h3, if_neg h3]
          by_cases h4 : l.head? = some '`'
          · rw [if_pos h4]
            rfl
          · rw [if_neg h4]
            rfl

/-- C4: render filtering.  The rendering loop of `display_page` equals the
specification's rule — blank lines skipped, the four marker prefixes
styled and reset, every other line dropped silently — for every style
configuration and every page; and on the page quoted by the claim it
renders exactly three styled lines, dropping the blank line and the
plain-text line. -/
theorem render_filtering (st : Styles) (lines : List CStr) :
    render st lines = render_spec st lines
    ∧ render st [("# Title\n").data, ("\n").data, ("> desc\n").data,
        ("plain text\n").data, ("`cmd`\n").data]
      = [st.heading ++ ("# Title\n").data ++ RESET_STYLING,
         st.subheading ++ ("> desc\n").data ++ RESET_STYLING,
         st.command ++ ("`cmd`\n").data ++ RESET_STYLING] := by
  constructor
  · have h : display_line st = render_line_spec st := funext (display_line_eq_spec st)
    rw [render, render_spec, h]
  · rfl

theorem strstr_found_at_start (needle hay : CStr) (h : needle <+: hay) :
    strstrSuffix? needle hay = some hay := by
  cases hay with
  | nil =>
    have hn : needle = [] := List.prefix_nil.mp h
    simp [strstrSuffix?, hn]
  | cons c t => simp [strstrSuffix?, if_pos h]

theorem strstr_first_occ (needle suf : CStr) :
    ∀ pre : CStr, OccursFirstAt pre needle suf →
      strstrSuffix? needle (pre ++ (needle ++ suf)) = some (needle ++ suf) := by
  intro pre
  induction pre with
  | nil =>
    intro _
    simpa using strstr_found_at_start needle (needle ++ suf) (List.prefix_append needle suf)
  | cons c t ih =>
    intro h
    have h0 : ¬ needle <+: (c :: (t ++ (needle ++ suf))) := by
      have := h 0 (Nat.succ_pos _)
      simpa using this
    rw [List.cons_append, strstrSuffix?, if_neg h0]
    exact ih (fun i hi => by
      have := h (i + 1) (by simpa using Nat.succ_lt_succ hi)
      simpa using this)

theorem strchr_append_of_not_mem (A B : CStr) (a : Char) (h : a ∉ A) :
    strchr (A ++ B) a = strchr B a := by
  induction A with
  | nil => rfl
  | cons c t ih =>
    have hc : ¬ c = a := fun hh => h (hh ▸ List.mem_cons_self c t)
    simp only [List.cons_append, strchr, if_neg hc]
    exact ih (fun hm => h (List.mem_cons_of_mem c hm))

theorem ftw_callback_line_eq (ln pre frag : CStr) (hln : '/' ∉ ln)
    (hocc : OccursFirstAt pre ('/' :: ln) ('/' :: frag)) :
    ftw_callback_line ('/' :: ln) (pre ++ (('/' :: ln) ++ '/' :: frag))
      = some (frag ++ ['\n']) := by
  have h2 : strchr (ln ++ '/' :: frag) '/' = some ('/' :: frag) := by
    rw [strchr_append_of_not_mem _ _ _ hln]
    simp [strchr]
  have h1 : strstrSuffix? ('/' :: ln) (pre ++ '/' :: (ln ++ '/' :: frag))
      = some ('/' :: (ln ++ '/' :: frag)) := by
    have h0 := strstr_first_occ ('/' :: ln) ('/' :: frag) pre hocc
    simpa using h0
  simp only [ftw_callback_line, List.cons_append, h1, List.tail_cons, h2]

theorem index_lines_eq (ln pre : CStr) (hln : '/' ∉ ln) (tree : List FtwEntry) :
    ∀ frags : List CStr,
      (tree.filter (fun e => decide (e.typeflag = FtwType.F))).map FtwEntry.path
        = frags.map (fun f => pre ++ (('/' :: ln) ++ '/' :: f)) →
      (∀ f ∈ frags, OccursFirstAt pre ('/' :: ln) ('/' :: f)) →
      index_lines ('/' :: ln) tree = some (frags.map (· ++ ['\n'])) := by
  induction tree with
  | nil =>
    intro frags htree _
    rcases frags with _ | ⟨f, fs⟩
    · rfl
    · simp at htree
  | cons e t ih =>
    intro frags htree hocc
    by_cases hF : e.typeflag = FtwType.F
    · rw [List.filter_cons_of_pos (by simp [hF])] at htree
      rcases frags with _ | ⟨f, fs⟩
      · simp at htree
      · simp only [List.map_cons, List.cons.injEq] at htree
        obtain ⟨hpath, hrest⟩ := htree
        have hcb := ftw_callback_line_eq ln pre f hln (hocc f (List.mem_cons_self f fs))
        rw [← hpath] at hcb
        simp only [index_lines, if_pos hF, hcb]
        rw [ih fs hrest (fun g hg => hocc g (List.mem_cons_of_mem f hg))]
        rfl
    · rw [List.filter_cons_of_neg (by simp [hF])] at htree
      simp only [index_lines, if_neg hF]
      exact ih frags htree hocc

/-- C9: index rebuild.  `index_pages` opens the index through
`open_index("w")`, so the produced index is the same whatever the prior
contents were (first conjunct — in particular a second run over the
unchanged tree reproduces the first run's lines exactly); and it holds one
line per regular file visited, namely the `<platform>/<filename>` fragment
after the language-root segment, newline-terminated, in traversal order
(second conjunct).  `pre` is the cache path up to the language segment
`'/' :: ln`; the occurrence hypothesis says the language segment does not
already occur inside `pre`, so that `strstr` finds the real one. -/
theorem index_pages_rebuild
    (pre ln : CStr) (hln : '/' ∉ ln)
    (tree : List FtwEntry) (frags : List CStr) (prior : List CStr)
    (htree : (tree.filter (fun e => decide (e.typeflag = FtwType.F))).map FtwEntry.path
        = frags.map (fun f => pre ++ (('/' :: ln) ++ '/' :: f)))
    (hocc : ∀ f ∈ frags, OccursFirstAt pre ('/' :: ln) ('/' :: f)) :
    (∀ q1 q2 : List CStr, index_pages ('/' :: ln) tree q1 = index_pages ('/' :: ln) tree q2)
    ∧ index_pages ('/' :: ln) tree prior = some (frags.map (· ++ ['\n'])) := by
  refine ⟨fun q1 q2 => rfl, ?_⟩
  rw [index_pages, index_lines_eq ln pre hln tree frags htree hocc]
  rfl

/-- C9 witness: a three-node `ftw` walk of a cache holding one page;
rebuilding over a stale prior index yields exactly the one fragment line,
and the result does not depend on the prior contents. -/
theorem index_pages_rebuild_witness :
    index_pages (("/pages").data)
      [⟨("/home/u/.cache/tldr/pages").data, FtwType.D⟩,
       ⟨("/home/u/.cache/tldr/pages/linux").data, FtwType.D⟩,
       ⟨("/home/u/.cache/tldr/pages/linux/tar.md").data, FtwType.F⟩]
      [("stale/old.md\n").data]
      = some [("linux/tar.md\n").data]
    ∧ index_pages (("/pages").data)
        [⟨("/home/u/.cache/tldr/pages").data, FtwType.D⟩,
         ⟨("/home/u/.cache/tldr/pages/linux").data, FtwType.D⟩,
         ⟨("/home/u/.cache/tldr/pages/linux/tar.md").data, FtwType.F⟩]
        []
      = index_pages (("/pages").data)
        [⟨("/home/u/.cache/tldr/pages").data, FtwType.D⟩,
         ⟨("/home/u/.cache/tldr/pages/linux").data, FtwType.D⟩,
         ⟨("/home/u/.cache/tldr/pages/linux/tar.md").data, FtwType.F⟩]
        [("stale/old.md\n").data] := by
  have h := index_pages_rebuild (("/home/u/.cache/tldr").data) (("pages").data)
    (by decide)
    [⟨("/home/u/.cache/tldr/pages").data, FtwType.D⟩,
     ⟨("/home/u/.cache/tldr/pages/linux").data, FtwType.D⟩,
     ⟨("/home/u/.cache/tldr/pages/linux/tar.md").data, FtwType.F⟩]
    [("linux/tar.md").data] [("stale/old.md\n").data] (by decide) (by decide)
  exact ⟨h.2, h.1 [] [("stale/old.md\n").data]⟩

theorem fgetsChunk_line (rest : CStr) :
    ∀ (xs : CStr) (n : Nat), '\n' ∉ xs → xs.length + 1 ≤ n →
      fgetsChunk n (xs ++ '\n' :: rest) = (xs ++ ['\n'], rest) := by
  intro xs
  induction xs with
  | nil =>
    intro n _ hn
    cases n with
    | zero => exact absurd hn (by omega)
    | succ m => rfl
  | cons a t ih =>
    intro n hmem hn
    cases n with
    | zero => exact absurd hn (by omega)
    | succ m =>
      have ha : ¬ a = '\n' := fun hh => hmem (hh ▸ List.mem_cons_self a t)
      have ht : '\n' ∉ t := fun hm => hmem (List.mem_cons_of_mem a hm)
      have hlen : t.length + 1 ≤ m := by
        simp only [List.length_cons] at hn
        omega
      simp only [List.cons_append, fgetsChunk, if_neg ha, List.append_eq, ih m ht hlen]

theorem fgetsChunksGo_cons (fuel : Nat) (s : CStr) (hs : s ≠ []) :
    fgetsChunksGo (fuel + 1) s
      = (fgetsChunk 1023 s).1 :: fgetsChunksGo fuel (fgetsChunk 1023 s).2 := by
  cases s with
  | nil => exact absurd rfl hs
  | cons c t => rfl

theorem fgetsChunksGo_joinAll (lines : List CStr) :
    ∀ fuel : Nat,
      (∀ l ∈ lines, l ≠ [] ∧ l.getLast? = some '\n' ∧ '\n' ∉ l.dropLast ∧ l.length < 1024) →
      (joinAll lines).length ≤ fuel →
      fgetsChunksGo fuel (joinAll lines) = lines := by
  induction lines with
  | nil =>
    intro fuel _ _
    cases fuel <;> rfl
  | cons l ls ih =>
    intro fuel hwf hfuel
    obtain ⟨hne, hlast, hmem, hlen⟩ := hwf l (List.mem_cons_self l ls)
    have hl : l = l.dropLast ++ ['\n'] := by
      have h1 := List.dropLast_append_getLast hne
      have h2 : l.getLast hne = '\n' := by
        have h3 := List.getLast?_eq_getLast l hne
        rw [h3] at hlast
        exact Option.some.inj hlast
      rw [← h2]
      exact h1.symm
    have hdl : l.dropLast.length + 1 = l.length := by
      have h4 : l.length ≠ 0 := fun hh => hne (List.eq_nil_of_length_eq_zero hh)
      have h5 := List.length_dropLast l
      omega
    have hjoin : joinAll (l :: ls) = l.dropLast ++ '\n' :: joinAll ls := by
      show l ++ joinAll ls = _
      conv_lhs => rw [hl]
      simp [List.append_assoc]
    have hjl : (joinAll (l :: ls)).length = l.length + (joinAll ls).length := by
      show (l ++ joinAll ls).length = _
      simp [List.length_append]
    cases fuel with
    | zero =>
      exact absurd hfuel (by rw [hjl]; omega)
    | succ f =>
      have hnil : joinAll (l :: ls) ≠ [] := by
        intro hh
        rw [hh] at hjl
        simp at hjl
        omega
      rw [fgetsChunksGo_cons f _ hnil]
      have hchunk : fgetsChunk 1023 (joinAll (l :: ls)) = (l, joinAll ls) := by
        rw [hjoin]
        have h6 := fgetsChunk_line (joinAll ls) l.dropLast 1023 hmem (by omega)
        rw [h6, ← hl]
      simp only [hchunk]
      have hrec := ih f (fun x hx => hwf x (List.mem_cons_of_mem l hx)) (by
        rw [hjl] at hfuel
        omega)
      rw [hrec]

/-- C10: locator totality under the index invariant.  When every line of
the index file contains a `/`, ends with its newline terminator (no
interior newline) and is shorter than `BUF_SIZE = 1024` bytes — so that
each `fgets` call returns exactly one whole line — `find_page` never
reaches a NULL-pointer branch: every `strchr` on an index line succeeds.
The second conjunct shows the guard is real: an index line with no `/`
sends the filename-only lookup into the unguarded
`strchr(buf, '/') + 1` dereference. -/
theorem find_page_no_null_deref (lines : List CStr) (q : CStr)
    (h : ∀ l ∈ lines, l ≠ [] ∧ l.getLast? = some '\n' ∧ '\n' ∉ l.dropLast
        ∧ '/' ∈ l ∧ l.length < 1024) :
    find_page_file (joinAll lines) q ≠ FindResult.crash
    ∧ find_page [("noslash\n").data] (("cmd").data) = FindResult.crash := by
  constructor
  · have hchunks : fgetsChunks (joinAll lines) = lines :=
      fgetsChunksGo_joinAll lines (joinAll lines).length
        (fun l hl => ⟨(h l hl).1, (h l hl).2.1, (h l hl).2.2.1, (h l hl).2.2.2.2⟩)
        (le_refl _)
    intro hcon
    rw [find_page_file, hchunks, find_page,
      find_go_eq ((strchr q '/').isSome) (q ++ (".md\n").data) lines
        (fun _ l hl => (h l hl).2.2.2.1) (List.mem_append_right q (by decide))] at hcon
    cases hfind : lines.find? (lineMatches ((strchr q '/').isSome) (q ++ (".md\n").data)) with
    | none => rw [hfind] at hcon; simp at hcon
    | some x => rw [hfind] at hcon; simp at hcon
  · rfl

/-- C10 witness: a well-formed one-line index never crashes the locator,
while the degenerate slashless line does. -/
theorem find_page_no_null_deref_witness :
    find_page_file (joinAll [("linux/foo.md\n").data]) (("bar").data) ≠ FindResult.crash
    ∧ find_page [("noslash\n").data] (("cmd").data) = FindResult.crash :=
  find_page_no_null_deref [("linux/foo.md\n").data] (("bar").data) (by decide)

end Tldr
